import Mathlib

/-!
# Error Simplifier for Java — verification of the error pipeline

Shallow embedding of the error-capture-and-explanation pipeline of the
VS Code extension (`src/extension.js`, current variant, and the legacy
variant in `src/unnamed/part_000`).  Strings are modelled as `List Char`
(JavaScript strings over the ASCII fragment exercised here); the
JavaScript regular expressions that occur in the source are modelled by
a matcher covering exactly the constructs those expressions use
(literal characters, the `.` wildcard which does not match line
terminators, backslash escapes of punctuation); any pattern character
outside this fragment (an unescaped metacharacter, or an alphanumeric
class escape) is treated as an unsupported pattern, and
`new RegExp(...)` construction is modelled as fallible (`Option`).
-/

/-- JavaScript whitespace (the ASCII fragment): matched by `\s` in a regex
and stripped by `String.prototype.trim`. -/
def isJsWs (c : Char) : Bool :=
  c = ' ' || c = '\t' || c = '\n' || c = '\r' || c = '\x0b' || c = '\x0c'

/-- Decides whether `n` is a prefix of `s` (character-wise). -/
def startsWithB : List Char → List Char → Bool
  | [], _ => true
  | _ :: _, [] => false
  | a :: n, c :: s => a = c && startsWithB n s

/-- Decides whether `n` occurs as a contiguous substring of `s`
(JavaScript `s.includes(n)`). -/
def containsSub (n : List Char) : List Char → Bool
  | [] => startsWithB n []
  | c :: cs => startsWithB n (c :: cs) || containsSub n cs

/-- The characters of the literal `"Note:"` filtered by `cleanJavaError`. -/
def noteChars : List Char := ['N', 'o', 't', 'e', ':']

/-- JavaScript `s.split("\n")`: splits at every newline, keeping empty
chunks, and always returns at least one chunk. -/
def splitNl : List Char → List (List Char)
  | [] => [[]]
  | c :: cs =>
    match splitNl cs with
    | [] => [[c]]
    | l :: ls => if c = '\n' then [] :: l :: ls else (c :: l) :: ls

/-- JavaScript `lines.join("\n")`. -/
def joinNl : List (List Char) → List Char
  | [] => []
  | [l] => l
  | l :: l' :: ls => l ++ '\n' :: joinNl (l' :: ls)

/-- Strips leading JavaScript whitespace. -/
def trimLeftWs (s : List Char) : List Char := s.dropWhile isJsWs

/-- Strips trailing JavaScript whitespace. -/
def trimRightWs (s : List Char) : List Char := (s.reverse.dropWhile isJsWs).reverse

/-- JavaScript `String.prototype.trim` (ASCII fragment). -/
def trimWs (s : List Char) : List Char := trimRightWs (trimLeftWs s)

/-- One atom of the modelled regular-expression fragment: a literal
character, or the `.` wildcard. -/
inductive RAtom : Type
  | lit (c : Char)
  | anyChar
deriving DecidableEq, Repr

/-- Whether a regex atom matches one character.  JavaScript `.` (without
the `s` flag) matches any character except a line terminator. -/
def atomMatches : RAtom → Char → Bool
  | .lit a, c => a = c
  | .anyChar, c => !(c = '\n' || c = '\r')

/-- A fixed-length pattern matches a prefix of `s`, one character per atom. -/
def matchAt : List RAtom → List Char → Bool
  | [], _ => true
  | _ :: _, [] => false
  | a :: p, c :: s => atomMatches a c && matchAt p s

/-- Regex metacharacters outside the modelled fragment: a pattern
containing one of these unescaped is not modelled (`new RegExp` on it
either errors or has semantics beyond this fragment). -/
def regexSpecials : List Char :=
  ['^', '$', '*', '+', '?', '(', ')', '[', ']', '|', '\x7b', '\x7d']

/-- Interprets a string as a JavaScript `RegExp` source, over the
modelled fragment: `.` is the wildcard, `\` followed by a
non-alphanumeric character escapes it to a literal, other
non-metacharacter characters are literals.  Patterns using constructs
outside the fragment (unescaped metacharacters, alphanumeric class
escapes such as `\d`, a trailing backslash — the last being a genuine
`SyntaxError` in JavaScript) yield `none`. -/
def parseRegexChars : List Char → Option (List RAtom)
  | [] => some []
  | c :: rest =>
    if c = '\\' then
      match rest with
      | [] => none
      | e :: rest2 =>
        if e.isAlphanum then none
        else (parseRegexChars rest2).map (RAtom.lit e :: ·)
    else if c = '.' then (parseRegexChars rest).map (RAtom.anyChar :: ·)
    else if c ∈ regexSpecials then none
    else (parseRegexChars rest).map (RAtom.lit c :: ·)

/-- Scanning loop of a JavaScript global replace-with-empty for a
fixed-length pattern: at each position, if the pattern matches, the
matched characters are dropped and scanning resumes after them;
otherwise the character is kept.  The `skip` counter holds the number
of characters of the current match still to be discarded, making the
recursion structural (one character consumed per step).  Only called
with nonempty patterns and `skip = 0`. -/
def replaceGoAux (p : List RAtom) : Nat → List Char → List Char
  | _, [] => []
  | skip + 1, _ :: cs => replaceGoAux p skip cs
  | 0, c :: cs =>
    if matchAt p (c :: cs) then replaceGoAux p (p.length - 1) cs
    else c :: replaceGoAux p 0 cs

/-- JavaScript `s.replace(new RegExp(pattern, "g"), "")` for a parsed
pattern.  An empty pattern matches the empty string at every position,
so replacing its matches with the empty string returns `s` unchanged. -/
def replaceAllRA (p : List RAtom) (s : List Char) : List Char :=
  if p.isEmpty then s else replaceGoAux p 0 s

/-- Whether the pattern matches at some position of `s`. -/
def hasMatchAnywhere (p : List RAtom) : List Char → Bool
  | [] => matchAt p []
  | c :: cs => matchAt p (c :: cs) || hasMatchAnywhere p cs

/-- `cleanJavaError` (`src/extension.js` lines 109–115, identical in
`src/unnamed/part_000` lines 129–135): remove every match of
`new RegExp(contextPath, "g")`, split into lines, drop the lines
containing `"Note:"`, rejoin, trim.  `none` models the `SyntaxError`
thrown by `new RegExp` on an invalid pattern (or a pattern outside the
modelled fragment). -/
def cleanJavaError (error contextPath : String) : Option String :=
  (parseRegexChars contextPath.data).map fun p =>
    String.mk (trimWs (joinNl
      ((splitNl (replaceAllRA p error.data)).filter
        fun line => !containsSub noteChars line)))

/-- The cleaning algorithm as §4.2 of the spec words it: the context
path is removed as a *literal substring* (as if every special character
had been escaped before the pattern was built), then Note-lines are
dropped, the rest rejoined and trimmed.  Stated for comparison with
`cleanJavaError`, which uses the path unescaped. -/
def cleanLiteralSpec (error contextPath : String) : String :=
  String.mk (trimWs (joinNl
    ((splitNl (replaceAllRA (contextPath.data.map RAtom.lit) error.data)).filter
      fun line => !containsSub noteChars line)))

/-- Index of the last `'\n'` in a list, if any. -/
def lastNlIdx : List Char → Option Nat
  | [] => none
  | c :: rest =>
    match lastNlIdx rest with
    | some k => some (k + 1)
    | none => if c = '\n' then some 0 else none

/-- First pass of `formatExplanation`:
`rawText.replace(/\n\s*\n/g, "\n\n")`.  A greedy match starting at a
newline consumes the following whitespace up to the last newline of the
maximal whitespace run and is replaced by exactly two newlines;
scanning resumes after the match.  `skip` counts match characters still
to discard (structural-recursion device); entered with `skip = 0`. -/
def collapseGo : Nat → List Char → List Char
  | _, [] => []
  | skip + 1, _ :: cs => collapseGo skip cs
  | 0, c :: cs =>
    if c = '\n' then
      match lastNlIdx (cs.takeWhile isJsWs) with
      | some k => '\n' :: '\n' :: collapseGo (k + 1) cs
      | none => c :: collapseGo 0 cs
    else c :: collapseGo 0 cs

def collapseBlankRuns (s : List Char) : List Char := collapseGo 0 s

/-- Second pass of `formatExplanation`:
`.replace(/(\d+\.)\s*/g, "\n$1 ")`.  A match is a maximal digit run
followed by a period and then any whitespace; it is replaced by a
newline, the digits, the period and a single space.  `skip` as in
`collapseGo`; entered with `skip = 0`. -/
def breakNumGo : Nat → List Char → List Char
  | _, [] => []
  | skip + 1, _ :: cs => breakNumGo skip cs
  | 0, c :: cs =>
    if c.isDigit ∧ ((c :: cs).drop ((c :: cs).takeWhile (·.isDigit)).length).head? = some '.' then
      let ds := (c :: cs).takeWhile (·.isDigit)
      let sp := (((c :: cs).drop ds.length).tail).takeWhile isJsWs
      '\n' :: (ds ++ '.' :: ' ' :: breakNumGo (ds.length - 1 + 1 + sp.length) cs)
    else c :: breakNumGo 0 cs

def breakNumbered (s : List Char) : List Char := breakNumGo 0 s

/-- Helper for the third pass: after an opening `**`, the lazy
`(.*?)\*\*` finds the nearest closing `**` with no line terminator in
between, returning the enclosed content and the remainder after the
closing delimiter. -/
def findBoldEnd : List Char → Option (List Char × List Char)
  | [] => none
  | c :: cs =>
    if c = '*' && cs.head? = some '*' then some ([], cs.tail)
    else if c = '\n' || c = '\r' then none
    else (findBoldEnd cs).map fun p => (c :: p.1, p.2)

/-- Third pass of `formatExplanation`:
`.replace(/\*\*(.*?)\*\*/g, (_, match) => `**${ match.trim()}**`)` —
each bold segment keeps its delimiters and has its content trimmed;
a position where no complete bold segment starts is scanned past one
character at a time.  `skip` as in `collapseGo`; entered with
`skip = 0`. -/
def boldGo : Nat → List Char → List Char
  | _, [] => []
  | skip + 1, _ :: cs => boldGo skip cs
  | 0, c :: cs =>
    if c = '*' && cs.head? = some '*' then
      match findBoldEnd cs.tail with
      | some (m, _) => '*' :: '*' :: (trimWs m ++ '*' :: '*' :: boldGo (m.length + 3) cs)
      | none => c :: boldGo 0 cs
    else c :: boldGo 0 cs

def boldTrimPass (s : List Char) : List Char := boldGo 0 s

/-- `formatExplanation` (`src/extension.js` lines 191–196): the three
global regex replacements applied in order. -/
def formatExplanation (rawText : String) : String :=
  String.mk (boldTrimPass (breakNumbered (collapseBlankRuns rawText.data)))

/-- One stubbed outcome of the `axios.post` call in
`getErrorExplanation`: a successful chat response carrying
`choices[0].message.content`, an HTTP error response with a status
code, a request that got no response, or an error raised before the
request was sent. -/
inductive ApiResp : Type
  | ok (content : String)
  | httpStatus (status : Nat) (statusText : String)
  | noResponse
  | requestErr (msg : String)

/-- The `while (retries > 0)` loop of `getErrorExplanation`
(`src/extension.js` lines 131–186), driven by an oracle `resps` giving
the outcome of the `k`-th request.  Returns the outcome (`.ok`
formatted explanation, or `.error` with the thrown message), the number
of requests actually issued, and the list of backoff delays slept, in
seconds (the code sleeps `Math.pow(2, 4 - retries) * 1000`
milliseconds while `retries` still holds its pre-decrement value). -/
def explainLoop (model : String) (resps : Nat → ApiResp) (k : Nat) :
    Nat → Except String String × Nat × List Nat
  | 0 => (.error "API request failed after multiple retries", 0, [])
  | retries + 1 =>
    match resps k with
    | .ok content => (.ok (formatExplanation content), 1, [])
    | .httpStatus 429 _ =>
      let out := explainLoop model resps (k + 1) retries
      (out.1, out.2.1 + 1, 2 ^ (4 - (retries + 1)) :: out.2.2)
    | .httpStatus 401 _ =>
      (.error "Invalid API key. Please check your Together.ai API key.", 1, [])
    | .httpStatus 404 _ =>
      (.error ("Model " ++ model ++ " not found. Check your model name."), 1, [])
    | .httpStatus s st =>
      (.error ("API Error: " ++ toString s ++ " - " ++ st), 1, [])
    | .noResponse =>
      (.error "No response from API. Check your internet connection.", 1, [])
    | .requestErr m =>
      (.error ("API Request Error: " ++ m), 1, [])

/-- `getErrorExplanation` of the current variant: the loop entered with
`retries = 3` and the first request at index `0`. -/
def getErrorExplanation (model : String) (resps : Nat → ApiResp) :
    Except String String × Nat × List Nat :=
  explainLoop model resps 0 3

/-- The fixed system message of the request body
(`src/extension.js` line 142). -/
def systemInstruction : String :=
  "You are a helpful programming assistant. Explain errors in simple terms with 1-2 sentence solutions."

/-- The user message of the request body, as built from
`getErrorExplanation`'s parameters `(errorType, errorText)`
(`src/extension.js` line 121). -/
def sentUserMessage (errorType errorText : String) : String :=
  "Explain this Java " ++ errorType ++ " error in simple terms: " ++ errorText

/-- The user message actually sent for a compilation failure: the call
site (`src/extension.js` line 201) is
`getErrorExplanation(cleanError, "compilation", apiKey)`, so the
cleaned error text is bound to the `errorType` parameter and the string
`"compilation"` to `errorText`. -/
def compilationCallUserMessage (cleanError : String) : String :=
  sentUserMessage cleanError "compilation"

/-- The user message actually sent for a runtime failure
(`src/extension.js` line 208 passes `(cleanError, "runtime", apiKey)`). -/
def runtimeCallUserMessage (cleanError : String) : String :=
  sentUserMessage cleanError "runtime"

/-- Result of an `execAsync` call that resolved (exit code zero):
captured standard streams. -/
structure ExecOk : Type where
  stdout : String
  stderr : String
deriving DecidableEq, Repr

/-- Result of an `execAsync` call that rejected (nonzero exit or start
failure): the error object carries the captured `stderr` and a
`message`. -/
structure ExecErr : Type where
  stderr : String
  message : String
deriving DecidableEq, Repr

/-- Outcome of one external-process step. -/
abbrev ExecResult : Type := Except ExecErr ExecOk

/-- Observable routing of one `executeJavaWithErrors` invocation
(`src/extension.js` lines 236–251):
which raw text, if any, was handed to `handleCompilationError`; whether
the `runJava` step was invoked at all; which message, if any, was
handed to `handleRuntimeError`; and the final program-output
notification, if reached. -/
structure StageTrace : Type where
  compileErrorRouted : Option String
  runInvoked : Bool
  runtimeErrorRouted : Option String
  outputShown : Option String
deriving DecidableEq, Repr

/-- `executeJavaWithErrors` as a routing function of the two stubbed
process outcomes.  `compileJava` (lines 213–221) returns `stderr`
unexamined when `execAsync` resolves — even a nonempty warnings-only
`stderr` — and only routes to `handleCompilationError` (then rethrows,
so the run step is skipped) when `execAsync` rejects.  `runJava`
(lines 224–233) additionally throws on a resolved call with nonempty
`stderr`; its handler receives `error.message`, which for that thrown
`new Error(stderr)` equals the `stderr` text. -/
def executeJavaWithErrors (compileRes runRes : ExecResult) : StageTrace :=
  match compileRes with
  | .error e => ⟨some e.stderr, false, none, none⟩
  | .ok _ =>
    match runRes with
    | .error e => ⟨none, true, some e.message, none⟩
    | .ok ro =>
      if ro.stderr ≠ "" then ⟨none, true, some ro.stderr, none⟩
      else ⟨none, true, none, some ("Program Output:\n" ++ ro.stdout)⟩

/-- What a failure handler of the current variant does, observably:
either `showErrorWithExplanation(cleanError, explanation)` is reached,
or an error propagates out of the handler (to be displayed by
`handleJavaExecution`'s catch as its bare message), or the `new RegExp`
construction inside `cleanJavaError` itself throws. -/
inductive HandlerResult : Type
  | shown (cleanError explanation : String)
  | thrown (message : String)
  | regexFailure
deriving DecidableEq, Repr

/-- `handleCompilationError` (`src/extension.js` lines 199–203): clean
the output, await the explanation, and present both.  There is no
`try`/`catch` here: if `getErrorExplanation` throws, the error
propagates and `showErrorWithExplanation` is never called. -/
def handleCompilationError (errorOutput filePath model : String)
    (resps : Nat → ApiResp) : HandlerResult :=
  match cleanJavaError errorOutput filePath with
  | none => .regexFailure
  | some cleanError =>
    match (getErrorExplanation model resps).1 with
    | .ok explanation => .shown cleanError explanation
    | .error msg => .thrown msg

/-- Word character of the legacy `\w`: letter, digit or underscore. -/
def isWordChar (c : Char) : Bool := c.isAlphanum || c = '_'

/-- Drops an exact literal prefix, or fails. -/
def dropLit : List Char → List Char → Option (List Char)
  | [], s => some s
  | _ :: _, [] => none
  | a :: n, c :: s => if a = c then dropLit n s else none

/-- Lazy `.*?\.` with the `s` flag: drops everything through the first
period, or fails if there is none. -/
def findDotAfter : List Char → Option (List Char)
  | [] => none
  | c :: cs => if c = '.' then some cs else findDotAfter cs

/-- Does `/Explain this Java \w+ error in simple terms:.*?\./s` match
starting at this position?  If so, returns the remainder after the
match. -/
def matchEchoAt (s : List Char) : Option (List Char) :=
  match dropLit "Explain this Java ".data s with
  | none => none
  | some s1 =>
    let w := s1.takeWhile isWordChar
    if w.isEmpty then none
    else
      match dropLit " error in simple terms:".data (s1.drop w.length) with
      | none => none
      | some s2 => findDotAfter s2

/-- Single (non-global) replacement of the first match of the
prompt-echo pattern with the empty string (legacy `processApiResponse`,
`src/unnamed/part_000` line 227). -/
def stripPromptEchoGo : List Char → List Char
  | [] => []
  | c :: cs =>
    match matchEchoAt (c :: cs) with
    | some rest => rest
    | none => c :: stripPromptEchoGo cs

/-- Legacy `.replace(/\n/g, " ")`. -/
def replaceNlWithSpace (s : List Char) : List Char :=
  s.map fun c => if c = '\n' then ' ' else c

/-- Legacy `processApiResponse` (`src/unnamed/part_000` lines 223–230):
`generated` models `data[0]?.generated_text` (`none` for a missing or
empty payload). -/
def processApiResponse (generated : Option String) : String :=
  match generated with
  | none => "No explanation available"
  | some t => String.mk (replaceNlWithSpace (trimWs (stripPromptEchoGo t.data)))

/-- The generic fallback of the legacy client
(`src/unnamed/part_000` line 166). -/
def legacyFallbackMessage : String :=
  "Could not get explanation. Please check your API key and connection."

/-- Legacy `getErrorExplanation` (`src/unnamed/part_000` lines
138–168): one request, no retry; the surrounding `try`/`catch` turns
*any* failure into the generic fallback text.  `outcome` stubs the
transport: `.ok generated` is a response carrying
`data[0]?.generated_text`, `.error` is any thrown error. -/
def legacyGetErrorExplanation (outcome : Except String (Option String)) : String :=
  match outcome with
  | .ok generated => processApiResponse generated
  | .error _ => legacyFallbackMessage

/-- Legacy `handleCompilationError` (`src/unnamed/part_000` lines
171–175): always reaches `showErrorWithExplanation` with the cleaned
error and whatever string the legacy client returned. -/
def legacyHandleCompilationError (errorOutput filePath : String)
    (outcome : Except String (Option String)) : HandlerResult :=
  match cleanJavaError errorOutput filePath with
  | none => .regexFailure
  | some cleanError => .shown cleanError (legacyGetErrorExplanation outcome)

/-- The truncation of `showErrorWithExplanation`
(`src/extension.js` line 264): an error text over 200 characters is cut
to its first 200 characters plus `"..."`. -/
def truncatedError (error : String) : String :=
  if error.data.length > 200 then String.mk (error.data.take 200) ++ "..." else error

/-- The error notification text (`src/extension.js` line 266). -/
def shownErrorMessage (error : String) : String :=
  "Java Error: " ++ truncatedError error

/-- The explanation notification text (`src/extension.js` line 270):
the explanation is embedded whole, never truncated. -/
def shownExplanationMessage (explanation : String) : String :=
  "Error Explanation:\n\n" ++ explanation

/-- A response indicating the rate-limit condition the retry loop
tests for (`err.response?.status === 429`). -/
def isRateLimited : ApiResp → Bool
  | .httpStatus s _ => s == 429
  | _ => false

/-- A pattern character with no special meaning in a regular
expression: not a metacharacter, not the wildcard, not a backslash.  A
context path made only of such characters is read by `new RegExp`
exactly as its literal self. -/
def plainPatternChar (c : Char) : Bool :=
  !(decide (c ∈ regexSpecials)) && !(c = '.') && !(c = '\\')

/-- Response schedule with four consecutive rate-limit responses and a
success from the fifth on. -/
def fourRateLimits : Nat → ApiResp :=
  fun k => if k < 4 then .httpStatus 429 "Too Many Requests" else .ok "All good"

/-- Response schedule with three consecutive rate-limit responses
followed by successes. -/
def threeRateLimitsThenOk : Nat → ApiResp :=
  fun k => if k < 3 then .httpStatus 429 "Too Many Requests" else .ok "All good"

/-! ## Supporting lemmas -/

theorem splitNl_ne_nil (s : List Char) : splitNl s ≠ [] := by
  cases s with
  | nil => simp [splitNl]
  | cons c cs =>
    simp only [splitNl]
    split
    · simp
    · split <;> simp

theorem replaceAllRA_nil (p : List RAtom) : replaceAllRA p [] = [] := by
  unfold replaceAllRA
  split <;> rfl

theorem replaceGoAux_no_match (p : List RAtom) (s : List Char)
    (h : hasMatchAnywhere p s = false) : replaceGoAux p 0 s = s := by
  induction s with
  | nil => rfl
  | cons c cs ih =>
    simp only [hasMatchAnywhere, Bool.or_eq_false_iff] at h
    simp only [replaceGoAux, h.1, Bool.false_eq_true, if_false]
    exact congrArg (c :: ·) (ih h.2)

theorem replaceAllRA_no_match (p : List RAtom) (s : List Char)
    (h : hasMatchAnywhere p s = false) : replaceAllRA p s = s := by
  unfold replaceAllRA
  split
  · rfl
  · exact replaceGoAux_no_match p s h

theorem parseRegexChars_plain (l : List Char)
    (h : ∀ c ∈ l, plainPatternChar c = true) :
    parseRegexChars l = some (l.map RAtom.lit) := by
  induction l with
  | nil => rfl
  | cons c cs ih =>
    have hc := h c (List.mem_cons_self c cs)
    simp only [plainPatternChar, Bool.and_eq_true, Bool.not_eq_true',
      decide_eq_false_iff_not] at hc
    obtain ⟨⟨h1, h2⟩, h3⟩ := hc
    unfold parseRegexChars
    rw [if_neg h3, if_neg h2, if_neg h1,
      ih (fun d hd => h d (List.mem_cons_of_mem c hd)), Option.map_some',
      List.map_cons]

theorem startsWithB_iff (n : List Char) : ∀ s, startsWithB n s = true ↔ n <+: s := by
  induction n with
  | nil => intro s; simp [startsWithB, List.nil_prefix]
  | cons a n ih =>
    intro s
    cases s with
    | nil => simp [startsWithB]
    | cons c s' => simp [startsWithB, List.cons_prefix_cons, ih s']

theorem containsSub_iff (n : List Char) : ∀ s, containsSub n s = true ↔ n <:+: s := by
  intro s
  induction s with
  | nil =>
    simp only [containsSub]
    rw [startsWithB_iff]
    simp [List.prefix_nil, List.infix_nil]
  | cons c cs ih =>
    simp only [containsSub, Bool.or_eq_true]
    rw [startsWithB_iff, ih, List.infix_cons_iff]

theorem splitNl_cons (c : Char) (cs : List Char) :
    splitNl (c :: cs) = if c = '\n' then [] :: splitNl cs
      else (c :: (splitNl cs).headD []) :: (splitNl cs).tail := by
  cases h : splitNl cs with
  | nil => exact absurd h (splitNl_ne_nil cs)
  | cons l ls => simp [splitNl, h]

theorem splitNl_no_nl (s : List Char) : ∀ l ∈ splitNl s, ∀ c ∈ l, c ≠ '\n' := by
  induction s with
  | nil =>
    intro l hl c hc
    simp only [splitNl, List.mem_singleton] at hl
    subst hl
    simp at hc
  | cons a as ih =>
    intro l hl c hc
    rw [splitNl_cons] at hl
    by_cases ha : a = '\n'
    · rw [if_pos ha] at hl
      rcases List.mem_cons.mp hl with rfl | hl'
      · simp at hc
      · exact ih l hl' c hc
    · rw [if_neg ha] at hl
      cases h : splitNl as with
      | nil => exact absurd h (splitNl_ne_nil as)
      | cons m ms =>
        rw [h] at hl
        simp only [List.headD_cons, List.tail_cons, List.mem_cons] at hl
        rcases hl with rfl | hl'
        · rcases List.mem_cons.mp hc with rfl | hc'
          · exact ha
          · exact ih m (by rw [h]; exact List.mem_cons_self m ms) c hc'
        · exact ih l (by rw [h]; exact List.mem_cons_of_mem m hl') c hc

theorem joinNl_cons₂ (x y : List Char) (r : List (List Char)) :
    joinNl (x :: y :: r) = x ++ '\n' :: joinNl (y :: r) := rfl

theorem joinNl_splitNl (s : List Char) : joinNl (splitNl s) = s := by
  induction s with
  | nil => rfl
  | cons a as ih =>
    rw [splitNl_cons]
    cases h : splitNl as with
    | nil => exact absurd h (splitNl_ne_nil as)
    | cons m ms =>
      rw [h] at ih
      by_cases ha : a = '\n'
      · rw [if_pos ha, joinNl_cons₂, ih, ha]
        rfl
      · rw [if_neg ha]
        simp only [List.headD_cons, List.tail_cons]
        cases ms with
        | nil =>
          simp only [joinNl] at ih ⊢
          rw [ih]
        | cons y r =>
          rw [joinNl_cons₂] at ih ⊢
          rw [List.cons_append, ih]

theorem splitNl_no_nl_eq (x : List Char) (h : ∀ c ∈ x, c ≠ '\n') : splitNl x = [x] := by
  induction x with
  | nil => rfl
  | cons a as ih =>
    rw [splitNl_cons, if_neg (h a (List.mem_cons_self a as)),
      ih fun c hc => h c (List.mem_cons_of_mem a hc)]
    simp

theorem splitNl_append_nl (x t : List Char) (h : ∀ c ∈ x, c ≠ '\n') :
    splitNl (x ++ '\n' :: t) = x :: splitNl t := by
  induction x with
  | nil => simp [splitNl_cons]
  | cons a as ih =>
    rw [List.cons_append, splitNl_cons,
      if_neg (h a (List.mem_cons_self a as)),
      ih fun c hc => h c (List.mem_cons_of_mem a hc)]
    simp

theorem splitNl_joinNl (l : List (List Char)) (hne : l ≠ [])
    (h : ∀ x ∈ l, ∀ c ∈ x, c ≠ '\n') : splitNl (joinNl l) = l := by
  induction l with
  | nil => exact absurd rfl hne
  | cons x xs ih =>
    cases xs with
    | nil => exact splitNl_no_nl_eq x (h x (List.mem_cons_self x []))
    | cons y r =>
      rw [joinNl_cons₂,
        splitNl_append_nl x _ (h x (List.mem_cons_self x (y :: r))),
        ih (by simp) fun z hz => h z (List.mem_cons_of_mem x hz)]

theorem splitNl_head_isPre (s : List Char) :
    ∀ l0 ls, splitNl s = l0 :: ls → l0 <+: s := by
  induction s with
  | nil =>
    intro l0 ls h
    simp only [splitNl] at h
    injection h with h1 _
    subst h1
    exact List.nil_prefix
  | cons a as ih =>
    intro l0 ls h
    rw [splitNl_cons] at h
    by_cases ha : a = '\n'
    · rw [if_pos ha] at h
      injection h with h1 _
      subst h1
      exact List.nil_prefix
    · rw [if_neg ha] at h
      cases hs : splitNl as with
      | nil => exact absurd hs (splitNl_ne_nil as)
      | cons m ms =>
        rw [hs] at h
        simp only [List.headD_cons, List.tail_cons] at h
        injection h with h1 _
        subst h1
        exact List.cons_prefix_cons.mpr ⟨rfl, ih m ms hs⟩

theorem mem_splitNl_isSubOf (s : List Char) : ∀ l ∈ splitNl s, l <:+: s := by
  induction s with
  | nil =>
    intro l hl
    simp only [splitNl, List.mem_singleton] at hl
    subst hl
    exact List.nil_infix
  | cons a as ih =>
    intro l hl
    rw [splitNl_cons] at hl
    by_cases ha : a = '\n'
    · rw [if_pos ha] at hl
      rcases List.mem_cons.mp hl with rfl | hl'
      · exact List.nil_infix
      · exact List.infix_cons (ih l hl')
    · rw [if_neg ha] at hl
      cases hs : splitNl as with
      | nil => exact absurd hs (splitNl_ne_nil as)
      | cons m ms =>
        rw [hs] at hl
        simp only [List.headD_cons, List.tail_cons, List.mem_cons] at hl
        rcases hl with rfl | hl'
        · exact (List.cons_prefix_cons.mpr ⟨rfl, splitNl_head_isPre as m ms hs⟩).isInfix
        · exact List.infix_cons (ih l (hs ▸ List.mem_cons_of_mem m hl'))

theorem startsWithB_headline (n : List Char) :
    ∀ (s l0 : List Char) (ls : List (List Char)),
      (∀ c ∈ n, c ≠ '\n') → startsWithB n s = true → splitNl s = l0 :: ls →
      startsWithB n l0 = true := by
  induction n with
  | nil => intro s l0 ls _ _ _; rfl
  | cons a n' ih =>
    intro s l0 ls hn hs hsplit
    cases s with
    | nil => simp [startsWithB] at hs
    | cons c cs =>
      simp only [startsWithB, Bool.and_eq_true] at hs
      obtain ⟨hac, hrest⟩ := hs
      have hceq : a = c := by simpa using hac
      have hcnl : ¬ c = '\n' := hceq ▸ hn a (List.mem_cons_self a n')
      rw [splitNl_cons, if_neg hcnl] at hsplit
      cases h2 : splitNl cs with
      | nil => exact absurd h2 (splitNl_ne_nil cs)
      | cons m ms =>
        rw [h2] at hsplit
        simp only [List.headD_cons, List.tail_cons] at hsplit
        injection hsplit with h3 _
        subst h3
        simp only [startsWithB, Bool.and_eq_true]
        exact ⟨hac, ih cs m ms (fun d hd => hn d (List.mem_cons_of_mem a hd)) hrest h2⟩

theorem containsSub_line (n : List Char) (hne : n ≠ []) (hn : ∀ c ∈ n, c ≠ '\n') :
    ∀ s, containsSub n s = true → ∃ l ∈ splitNl s, containsSub n l = true := by
  intro s
  induction s with
  | nil =>
    intro h
    simp only [containsSub] at h
    exact absurd (by simpa [List.prefix_nil] using (startsWithB_iff n []).mp h) hne
  | cons c cs ih =>
    intro h
    simp only [containsSub, Bool.or_eq_true] at h
    rcases h with h | h
    · have hcnl : ¬ c = '\n' := by
        cases n with
        | nil => exact absurd rfl hne
        | cons a n' =>
          simp only [startsWithB, Bool.and_eq_true] at h
          have hac : a = c := by simpa using h.1
          exact hac ▸ hn a (List.mem_cons_self a n')
      cases hs : splitNl cs with
      | nil => exact absurd hs (splitNl_ne_nil cs)
      | cons m ms =>
        refine ⟨c :: m, ?_, ?_⟩
        · rw [splitNl_cons, if_neg hcnl, hs]
          simp
        · have hsw := startsWithB_headline n (c :: cs) (c :: m) ms hn h
            (by rw [splitNl_cons, if_neg hcnl, hs]; simp)
          simp only [containsSub, Bool.or_eq_true]
          exact Or.inl hsw
    · obtain ⟨l, hl, hcl⟩ := ih h
      by_cases hc : c = '\n'
      · refine ⟨l, ?_, hcl⟩
        rw [splitNl_cons, if_pos hc]
        exact List.mem_cons_of_mem _ hl
      · cases hs : splitNl cs with
        | nil => exact absurd hs (splitNl_ne_nil cs)
        | cons m ms =>
          rw [hs] at hl
          rcases List.mem_cons.mp hl with rfl | hl'
          · refine ⟨c :: l, ?_, ?_⟩
            · rw [splitNl_cons, if_neg hc, hs]
              simp
            · simp only [containsSub, Bool.or_eq_true]
              exact Or.inr hcl
          · refine ⟨l, ?_, hcl⟩
            rw [splitNl_cons, if_neg hc, hs]
            exact List.mem_cons_of_mem _ hl'

theorem dropWhileWs_head_false (l : List Char) :
    ∀ c cs, l.dropWhile isJsWs = c :: cs → isJsWs c = false := by
  induction l with
  | nil => intro c cs h; simp [List.dropWhile] at h
  | cons a as ih =>
    intro c cs h
    rw [List.dropWhile_cons] at h
    split at h
    · exact ih c cs h
    · rename_i ha
      injection h with h1 _
      subst h1
      simpa using ha

theorem dropWhileWs_idem (l : List Char) :
    (l.dropWhile isJsWs).dropWhile isJsWs = l.dropWhile isJsWs := by
  cases h : l.dropWhile isJsWs with
  | nil => simp
  | cons c cs => rw [List.dropWhile_cons, dropWhileWs_head_false l c cs h]; simp

theorem trimRightWs_isPre (s : List Char) : trimRightWs s <+: s := by
  have h : (s.reverse.dropWhile isJsWs).reverse <+: s.reverse.reverse :=
    List.reverse_prefix.mpr (List.dropWhile_suffix isJsWs)
  simpa [trimRightWs] using h

theorem trimWs_isSubOf (s : List Char) : trimWs s <:+: s := by
  have h1 : trimRightWs (trimLeftWs s) <+: trimLeftWs s := trimRightWs_isPre _
  have h2 : trimLeftWs s <:+ s := List.dropWhile_suffix isJsWs
  exact (h1.isInfix).trans h2.isInfix

theorem trimRightWs_idem (s : List Char) : trimRightWs (trimRightWs s) = trimRightWs s := by
  unfold trimRightWs
  rw [List.reverse_reverse, dropWhileWs_idem]

theorem trimLeftWs_trimRight_of_left (s : List Char) :
    trimLeftWs (trimRightWs (trimLeftWs s)) = trimRightWs (trimLeftWs s) := by
  cases h : trimRightWs (trimLeftWs s) with
  | nil => rfl
  | cons c cs =>
    have hpre : trimRightWs (trimLeftWs s) <+: trimLeftWs s := trimRightWs_isPre _
    rw [h] at hpre
    obtain ⟨t, ht⟩ := hpre
    have hc : isJsWs c = false := by
      apply dropWhileWs_head_false s c (cs ++ t)
      unfold trimLeftWs at ht
      exact ht.symm
    unfold trimLeftWs
    rw [List.dropWhile_cons, hc]
    simp

theorem trimWs_idem (s : List Char) : trimWs (trimWs s) = trimWs s := by
  unfold trimWs
  rw [trimLeftWs_trimRight_of_left s, trimRightWs_idem]

theorem pipeline_fixpoint (L : List (List Char))
    (hnl : ∀ x ∈ L, ∀ c ∈ x, c ≠ '\n')
    (hnote : ∀ x ∈ L, containsSub noteChars x = false) :
    trimWs (joinNl ((splitNl (trimWs (joinNl L))).filter
      fun line => !containsSub noteChars line)) = trimWs (joinNl L) := by
  cases L with
  | nil => rfl
  | cons x xs =>
    have hwnote : containsSub noteChars (joinNl (x :: xs)) = false := by
      by_contra hcon
      have hc1 : containsSub noteChars (joinNl (x :: xs)) = true := by
        simpa using hcon
      obtain ⟨l, hl, hcl⟩ := containsSub_line noteChars (by decide) (by decide) _ hc1
      rw [splitNl_joinNl (x :: xs) (by simp) hnl] at hl
      rw [hnote l hl] at hcl
      exact absurd hcl (by simp)
    have htw : containsSub noteChars (trimWs (joinNl (x :: xs))) = false := by
      by_contra hcon
      have hc1 : containsSub noteChars (trimWs (joinNl (x :: xs))) = true := by
        simpa using hcon
      have h3 : noteChars <:+: joinNl (x :: xs) :=
        ((containsSub_iff _ _).mp hc1).trans (trimWs_isSubOf _)
      rw [(containsSub_iff _ _).mpr h3] at hwnote
      exact absurd hwnote (by simp)
    have hlines : ∀ l ∈ splitNl (trimWs (joinNl (x :: xs))),
        (fun line => !containsSub noteChars line) l = true := by
      intro l hl
      have hinf : l <:+: trimWs (joinNl (x :: xs)) := mem_splitNl_isSubOf _ l hl
      by_contra hcon
      have hc1 : containsSub noteChars l = true := by simpa using hcon
      have h4 : noteChars <:+: trimWs (joinNl (x :: xs)) :=
        ((containsSub_iff _ _).mp hc1).trans hinf
      rw [(containsSub_iff _ _).mpr h4] at htw
      exact absurd htw (by simp)
    rw [List.filter_eq_self.mpr hlines, joinNl_splitNl, trimWs_idem]

theorem isRateLimited_inv (r : ApiResp) (h : isRateLimited r = true) :
    ∃ st, r = ApiResp.httpStatus 429 st := by
  cases r with
  | httpStatus s st =>
    refine ⟨st, ?_⟩
    simp only [isRateLimited, beq_iff_eq] at h
    rw [h]
  | ok c => exact absurd h (by simp [isRateLimited])
  | noResponse => exact absurd h (by simp [isRateLimited])
  | requestErr m => exact absurd h (by simp [isRateLimited])

/-! ## Claim theorems -/

/-- C1: the claim states that the user message names the error kind
("compilation" or "runtime") and supplies the cleaned error text as the
error being explained.  The code declares
`getErrorExplanation(errorType, errorText, apiKey)` and builds the
prompt from those parameters in that role, but both call sites pass the
cleaned error first and the kind second, so the message actually sent
is "Explain this Java <cleaned error> error in simple terms:
compilation" — the two slots are swapped, contradicting the function's
own parameter names (and the legacy variant's argument order, which the
call sites still follow).  This theorem evaluates the built user
message at a concrete cleaned error text. -/
theorem c1_prompt_arguments_swapped :
    compilationCallUserMessage "missing semicolon" =
      "Explain this Java missing semicolon error in simple terms: compilation" ∧
    compilationCallUserMessage "missing semicolon" ≠
      "Explain this Java compilation error in simple terms: missing semicolon" ∧
    runtimeCallUserMessage "missing semicolon" =
      "Explain this Java missing semicolon error in simple terms: runtime" := by
  refine ⟨rfl, ?_, rfl⟩
  decide

/-- C2 counterexample: a compile step that exits zero with
warnings-only (nonempty) stderr is **not** routed to the
Compilation-error path, and the run step **is** invoked — refuting the
claim that nonempty stderr, rather than exit status, triggers the
failure path. -/
theorem c2_warnings_counterexample :
    (executeJavaWithErrors (.ok ⟨"", "warning: deprecated API"⟩)
        (.ok ⟨"done", ""⟩)).runInvoked = true ∧
    (executeJavaWithErrors (.ok ⟨"", "warning: deprecated API"⟩)
        (.ok ⟨"done", ""⟩)).compileErrorRouted = none := by
  decide

/-- C2 as amended: the Compilation-error path is taken exactly when the
compile process itself fails (the `execAsync` promise rejects, i.e.
nonzero exit), in which case the captured stderr is routed to the
handler and the run step is never invoked; whenever the compile step
resolves — whatever its stderr holds — nothing is routed to the
compilation handler and the run step is invoked. -/
theorem c2_exit_status_is_trigger :
    (∀ (e : ExecErr) (runRes : ExecResult),
      executeJavaWithErrors (.error e) runRes =
        ⟨some e.stderr, false, none, none⟩) ∧
    (∀ (o : ExecOk) (runRes : ExecResult),
      (executeJavaWithErrors (.ok o) runRes).compileErrorRouted = none ∧
      (executeJavaWithErrors (.ok o) runRes).runInvoked = true) := by
  constructor
  · intro e runRes
    rfl
  · intro o runRes
    cases runRes with
    | error e => exact ⟨rfl, rfl⟩
    | ok ro =>
      by_cases h : ro.stderr = "" <;> simp [executeJavaWithErrors, h]

/-- C3 counterexample: with every request rate-limited, `explain` makes
3 attempts (not 4) and sleeps 2 s, 4 s, 8 s (not 1 s, 2 s, 4 s). -/
theorem c3_counterexample :
    ¬((getErrorExplanation "m" fun _ => .httpStatus 429 "Too Many Requests").2.1 = 4 ∧
      (getErrorExplanation "m" fun _ => .httpStatus 429 "Too Many Requests").2.2 = [1, 2, 4]) := by
  decide

/-- C3 as amended: when the first three responses are rate-limited, the
loop (entered with `retries = 3`, decremented after each rate-limited
attempt, sleeping `2^(4 - retries)` seconds before the decrement) makes
exactly 3 attempts, sleeps 2 s, 4 s and 8 s, and then fails with the
generic retries-exhausted error. -/
theorem c3_exhausted_after_three_attempts (model : String) (resps : Nat → ApiResp)
    (h : ∀ k, k < 3 → isRateLimited (resps k) = true) :
    getErrorExplanation model resps =
      (.error "API request failed after multiple retries", 3, [2, 4, 8]) := by
  obtain ⟨st0, he0⟩ := isRateLimited_inv _ (h 0 (by omega))
  obtain ⟨st1, he1⟩ := isRateLimited_inv _ (h 1 (by omega))
  obtain ⟨st2, he2⟩ := isRateLimited_inv _ (h 2 (by omega))
  simp only [getErrorExplanation, explainLoop, he0, he1, he2]
  norm_num

/-- C3 witness: the amended statement at the all-rate-limited schedule. -/
theorem c3_exhausted_witness :
    (∀ k, k < 3 → isRateLimited (fourRateLimits k) = true) ∧
    getErrorExplanation "m" fourRateLimits =
      (.error "API request failed after multiple retries", 3, [2, 4, 8]) :=
  ⟨fun k hk => by interval_cases k <;> rfl,
   c3_exhausted_after_three_attempts "m" fourRateLimits
     fun k hk => by interval_cases k <;> rfl⟩

/-- C4 counterexample: with three rate-limited responses followed by a
success available at the fourth request, the loop never issues a fourth
request — it exhausts its countdown after 3 attempts and fails, instead
of returning Success after 4 attempts. -/
theorem c4_counterexample :
    (getErrorExplanation "m" threeRateLimitsThenOk).1 =
      .error "API request failed after multiple retries" ∧
    (getErrorExplanation "m" threeRateLimitsThenOk).2.1 = 3 :=
  ⟨rfl, rfl⟩

/-- C4 as amended: two consecutive rate-limited responses followed by a
success yield Success (the formatted content) after exactly 3 attempts,
having slept 2 s then 4 s (cumulative 6 s) before the retries. -/
theorem c4_two_rate_limits_then_success (model : String) (resps : Nat → ApiResp)
    (content : String)
    (h0 : isRateLimited (resps 0) = true) (h1 : isRateLimited (resps 1) = true)
    (h2 : resps 2 = .ok content) :
    getErrorExplanation model resps = (.ok (formatExplanation content), 3, [2, 4]) ∧
    (getErrorExplanation model resps).2.2.sum = 6 := by
  obtain ⟨st0, he0⟩ := isRateLimited_inv _ h0
  obtain ⟨st1, he1⟩ := isRateLimited_inv _ h1
  constructor
  · simp only [getErrorExplanation, explainLoop, he0, he1, h2]
    norm_num
  · simp only [getErrorExplanation, explainLoop, he0, he1, h2]
    norm_num

/-- C4 witness: the amended statement at a concrete schedule with two
rate limits and then a success. -/
theorem c4_two_rate_limits_witness :
    getErrorExplanation "m"
        (fun k => if k < 2 then .httpStatus 429 "Too Many Requests" else .ok "All good") =
      (.ok (formatExplanation "All good"), 3, [2, 4]) :=
  (c4_two_rate_limits_then_success "m"
    (fun k => if k < 2 then .httpStatus 429 "Too Many Requests" else .ok "All good")
    "All good" rfl rfl rfl).1

/-- C5 counterexample: `cleanJavaError` feeds the context path to
`new RegExp` unescaped, so it is a pattern and not a literal substring:
with path `a.b` the text `axb` is removed entirely (the wildcard
matches `x`) although `a.b` never occurs literally — the result differs
from the literal-substring cleaning the claim describes — and a path
containing `(` makes the regex construction fail, contradicting
"no failure cases". -/
theorem c5_counterexample :
    cleanJavaError "axb" "a.b" = some "" ∧
    cleanLiteralSpec "axb" "a.b" = "axb" ∧
    cleanJavaError "axb" "a.b" ≠ some (cleanLiteralSpec "axb" "a.b") ∧
    cleanJavaError "x" "(" = none := by
  refine ⟨by decide, by decide, by decide, by decide⟩

/-- C5 as amended: the context path is interpreted as a regular
expression, not a literal; only when every character of the path has no
special regex meaning does `clean` coincide with literal-substring
removal followed by the Note-line filter and trim, and on an empty
input text it yields the empty output. -/
theorem c5_plain_path_literal (raw path : String)
    (hplain : ∀ c ∈ path.data, plainPatternChar c = true) :
    cleanJavaError raw path = some (cleanLiteralSpec raw path) ∧
    cleanJavaError "" path = some "" := by
  have hp := parseRegexChars_plain path.data hplain
  constructor
  · unfold cleanJavaError cleanLiteralSpec
    rw [hp, Option.map_some']
  · unfold cleanJavaError
    rw [hp, Option.map_some']
    rw [show ("" : String).data = [] from rfl, replaceAllRA_nil]
    rfl

/-- C5 witness: the amended statement at a concrete raw text and a path
free of regex metacharacters. -/
theorem c5_plain_path_witness :
    cleanJavaError "aFile errNote: hint\nFile err2" "File " =
      some (cleanLiteralSpec "aFile errNote: hint\nFile err2" "File ") ∧
    cleanJavaError "" "File " = some "" :=
  c5_plain_path_literal "aFile errNote: hint\nFile err2" "File " (by decide)

/-- C6 counterexample: cleaning the stated stderr with context path
`/tmp/MyFile.java` does **not** yield `":3: error: ';' expected"` — the
path string never occurs in the raw text (which begins with the bare
file name, not the absolute path), so no path text is removed. -/
theorem c6_counterexample :
    cleanJavaError "MyFile.java:3: error: \x27;\x27 expected\nNote: some hint\n"
        "/tmp/MyFile.java" ≠
      some ":3: error: \x27;\x27 expected" := by
  decide

/-- C6 as amended: cleaning that stderr with that path removes the
Note-line and the trailing newline but leaves `MyFile.java` in place,
yielding `"MyFile.java:3: error: ';' expected"`. -/
theorem c6_cleaned_value :
    cleanJavaError "MyFile.java:3: error: \x27;\x27 expected\nNote: some hint\n"
        "/tmp/MyFile.java" =
      some "MyFile.java:3: error: \x27;\x27 expected" := by
  decide

/-- C7 counterexample: in the current variant there is no `try`/`catch`
around the explanation request in the handler, and no generic
"could not get explanation" text exists in it at all: when the request
fails (here with HTTP 401), the handler rethrows the failure message
and `showErrorWithExplanation` is never reached, so the user is *not*
shown the cleaned error together with a generic fallback. -/
theorem c7_counterexample :
    handleCompilationError "Bad.java:1: error: x" "Bad.java" "m"
        (fun _ => .httpStatus 401 "Unauthorized") =
      .thrown "Invalid API key. Please check your Together.ai API key." ∧
    handleCompilationError "Bad.java:1: error: x" "Bad.java" "m"
        (fun _ => .httpStatus 401 "Unauthorized") ≠
      .shown ":1: error: x" legacyFallbackMessage := by
  refine ⟨by decide, by decide⟩

/-- C7 as amended: when the explanation request fails in the current
variant, the handler propagates the failure's own message (which the
top-level catch displays) instead of presenting the cleaned error; the
claimed behavior — cleaned error plus the generic
"Could not get explanation…" text — is the legacy variant's, whose
catch-all maps every request failure to that fallback before
presenting. -/
theorem c7_failure_paths (errorOutput filePath model cleanError msg failMsg : String)
    (resps : Nat → ApiResp)
    (hclean : cleanJavaError errorOutput filePath = some cleanError)
    (hfail : (getErrorExplanation model resps).1 = .error msg) :
    handleCompilationError errorOutput filePath model resps = .thrown msg ∧
    legacyHandleCompilationError errorOutput filePath (.error failMsg) =
      .shown cleanError legacyFallbackMessage := by
  constructor
  · unfold handleCompilationError
    rw [hclean, hfail]
  · unfold legacyHandleCompilationError
    rw [hclean]
    rfl

/-- C7 witness: the amended statement at a concrete failing schedule. -/
theorem c7_failure_paths_witness :
    handleCompilationError "Bad.java:1: error: y" "Bad.java" "m"
        (fun _ => ApiResp.noResponse) =
      .thrown "No response from API. Check your internet connection." ∧
    legacyHandleCompilationError "Bad.java:1: error: y" "Bad.java" (.error "boom") =
      .shown ":1: error: y" legacyFallbackMessage :=
  c7_failure_paths "Bad.java:1: error: y" "Bad.java" "m" ":1: error: y"
    "No response from API. Check your internet connection." "boom"
    (fun _ => ApiResp.noResponse) (by decide) rfl

/-- C8 counterexample: cleaning is not idempotent.  With path `ab` and
raw text `aabb`, the first global replacement removes the middle `ab`
and the ends close up into a fresh `ab`, which a second cleaning then
removes — `clean(clean(raw,path),path)` is `""` while
`clean(raw,path)` is `"ab"`. -/
theorem c8_counterexample :
    cleanJavaError "aabb" "ab" = some "ab" ∧
    cleanJavaError "ab" "ab" = some "" ∧
    ¬((cleanJavaError "aabb" "ab").bind (fun o => cleanJavaError o "ab") =
        cleanJavaError "aabb" "ab") := by
  refine ⟨by decide, by decide, by decide⟩

/-- C8 as amended: cleaning is idempotent on every input whose cleaned
output contains no further occurrence of the path pattern (removal can
otherwise splice ends together into a fresh occurrence): if
`clean(raw, path)` succeeds with output `out` and the parsed pattern
matches nowhere in `out`, then `clean(out, path) = out`. -/
theorem c8_idempotent_when_no_match (raw path out : String) (p : List RAtom)
    (hp : parseRegexChars path.data = some p)
    (hclean : cleanJavaError raw path = some out)
    (hnm : hasMatchAnywhere p out.data = false) :
    cleanJavaError out path = some out := by
  unfold cleanJavaError at hclean ⊢
  rw [hp, Option.map_some'] at hclean ⊢
  simp only [Option.some.injEq] at hclean
  subst hclean
  refine congrArg some (congrArg String.mk ?_)
  rw [replaceAllRA_no_match p _ hnm]
  exact pipeline_fixpoint _
    (fun x hx => splitNl_no_nl _ x (List.mem_of_mem_filter hx))
    (fun x hx => by simpa using List.of_mem_filter hx)

/-- C8 witness: the amended statement at a concrete raw text whose
cleaned output is pattern-free. -/
theorem c8_idempotent_witness :
    cleanJavaError "z" "q" = some "z" :=
  c8_idempotent_when_no_match "x Note: y\n z" "q" "z" [RAtom.lit 'q']
    (by decide) (by decide) (by decide)


/-- C10: the presented error notification truncates error text over 200
characters to its first 200 characters plus `"..."` (203 characters in
all), shows error text of at most 200 characters in full, and embeds
the explanation text whole — never truncated. -/
theorem c10_truncation (e x : String) :
    (e.data.length ≤ 200 → truncatedError e = e) ∧
    (e.data.length > 200 →
      truncatedError e = String.mk (e.data.take 200) ++ "..." ∧
      (truncatedError e).data.length = 203) ∧
    shownErrorMessage e = "Java Error: " ++ truncatedError e ∧
    shownExplanationMessage x = "Error Explanation:\n\n" ++ x := by
  refine ⟨?_, ?_, rfl, rfl⟩
  · intro h
    unfold truncatedError
    rw [if_neg (by omega)]
  · intro h
    unfold truncatedError
    rw [if_pos h]
    refine ⟨rfl, ?_⟩
    rw [String.data_append]
    simp only [List.length_append, List.length_take, List.length_cons,
      List.length_nil]
    omega

set_option maxRecDepth 4000 in
/-- C10 witness: the truncation behavior at a 201-character error and a
short error. -/
theorem c10_truncation_witness :
    truncatedError (String.mk (List.replicate 201 'a')) =
      String.mk ((String.mk (List.replicate 201 'a')).data.take 200) ++ "..." ∧
    truncatedError "short error" = "short error" :=
  ⟨((c10_truncation (String.mk (List.replicate 201 'a')) "x").2.1 (by decide)).1,
   (c10_truncation "short error" "x").1 (by decide)⟩

theorem takeWhile_all_append (p : Char → Bool) (x b : List Char)
    (hx : ∀ c ∈ x, p c = true) (hb : b.takeWhile p = []) :
    (x ++ b).takeWhile p = x := by
  induction x with
  | nil => simpa using hb
  | cons c xs ih =>
    rw [List.cons_append, List.takeWhile_cons,
      hx c (List.mem_cons_self c xs),
      ih fun d hd => hx d (List.mem_cons_of_mem c hd)]
    simp

theorem lastNlIdx_replicate (k : Nat) :
    lastNlIdx (List.replicate (k + 1) '\n') = some k := by
  induction k with
  | zero => rfl
  | succ m ih =>
    rw [List.replicate_succ, lastNlIdx, ih]

theorem collapseGo_skip (x b : List Char) :
    collapseGo x.length (x ++ b) = collapseGo 0 b := by
  induction x with
  | nil => rfl
  | cons c xs ih => exact ih

theorem collapseGo_skip' (k : Nat) (x b : List Char) (hk : x.length = k) :
    collapseGo k (x ++ b) = collapseGo 0 b :=
  hk ▸ collapseGo_skip x b

theorem collapseGo_append_no_nl (a z : List Char) (ha : '\n' ∉ a) :
    collapseGo 0 (a ++ z) = a ++ collapseGo 0 z := by
  induction a with
  | nil => rfl
  | cons c as ih =>
    have hc : ¬ c = '\n' := fun h => ha (h ▸ List.mem_cons_self c as)
    rw [List.cons_append]
    simp only [collapseGo, if_neg hc]
    rw [ih fun h => ha (List.mem_cons_of_mem c h), List.cons_append]

theorem collapseGo_run (n : Nat) (hn : 2 ≤ n) (b : List Char)
    (hb : b.takeWhile isJsWs = []) :
    collapseGo 0 (List.replicate n '\n' ++ b) = '\n' :: '\n' :: collapseGo 0 b := by
  obtain ⟨m, rfl⟩ : ∃ m, n = m + 2 := ⟨n - 2, by omega⟩
  rw [show m + 2 = (m + 1) + 1 from rfl, List.replicate_succ, List.cons_append]
  have htw : (List.replicate (m + 1) '\n' ++ b).takeWhile isJsWs =
      List.replicate (m + 1) '\n' :=
    takeWhile_all_append isJsWs _ b (fun c hc => by
      rw [List.eq_of_mem_replicate hc]; rfl) hb
  rw [collapseGo, if_pos rfl, htw, lastNlIdx_replicate m]
  exact congrArg (fun t => '\n' :: '\n' :: t)
    (collapseGo_skip' (m + 1) (List.replicate (m + 1) '\n') b (by simp))

theorem breakNumGo_skip (x b : List Char) :
    breakNumGo x.length (x ++ b) = breakNumGo 0 b := by
  induction x with
  | nil => rfl
  | cons c xs ih => exact ih

theorem breakNumGo_skip' (k : Nat) (x b : List Char) (hk : x.length = k) :
    breakNumGo k (x ++ b) = breakNumGo 0 b :=
  hk ▸ breakNumGo_skip x b

theorem breakNumGo_append_no_digit (a z : List Char)
    (ha : ∀ c ∈ a, c.isDigit = false) :
    breakNumGo 0 (a ++ z) = a ++ breakNumGo 0 z := by
  induction a with
  | nil => rfl
  | cons c as ih =>
    have hc : ¬ (c.isDigit = true ∧
        (((c :: (as ++ z)).drop
          ((c :: (as ++ z)).takeWhile (·.isDigit)).length).head? = some '.')) :=
      fun h => absurd h.1 (by rw [ha c (List.mem_cons_self c as)]; simp)
    rw [List.cons_append]
    simp only [breakNumGo, if_neg hc]
    rw [ih fun d hd => ha d (List.mem_cons_of_mem c hd), List.cons_append]

theorem breakNumGo_marker (ds b : List Char) (hne : ds ≠ [])
    (hdig : ∀ c ∈ ds, c.isDigit = true) (hb : b.takeWhile isJsWs = []) :
    breakNumGo 0 (ds ++ '.' :: b) = '\n' :: (ds ++ '.' :: ' ' :: breakNumGo 0 b) := by
  obtain ⟨d, dtl, rfl⟩ := List.exists_cons_of_ne_nil hne
  rw [List.cons_append]
  have htw : (d :: (dtl ++ '.' :: b)).takeWhile (·.isDigit) = d :: dtl := by
    rw [← List.cons_append]
    exact takeWhile_all_append _ _ _ hdig (by rw [List.takeWhile_cons]; simp)
  have hdrop : (d :: (dtl ++ '.' :: b)).drop (d :: dtl).length = '.' :: b := by
    rw [← List.cons_append]
    exact List.drop_left _ _
  rw [breakNumGo, htw, hdrop]
  rw [if_pos ⟨hdig d (List.mem_cons_self d dtl), rfl⟩]
  simp only [hdrop]
  simp only [List.tail_cons, hb, List.length_cons, List.length_nil]
  rw [show dtl ++ '.' :: b = (dtl ++ ['.']) ++ b by simp,
    breakNumGo_skip' (dtl.length + 1 - 1 + 1 + 0) (dtl ++ ['.']) b
      (by simp only [List.length_append, List.length_cons, List.length_nil]; omega)]

/-- C9: the first post-processing pass replaces any run of two or more
newlines (followed by no further whitespace) by exactly two newlines —
one blank line — and the second pass inserts a line break before any
numbered-list marker (a maximal digit run followed by a period),
normalising the whitespace after the marker to a single space; in
particular the raw text `"1. first\n\n\nsecond"` post-processes to
`"\n1. first\n\nsecond"`, its blank run collapsed and a break inserted
before `"1."`, and a bolded segment gets its content trimmed. -/
theorem c9_postprocessing (a ds b : List Char) (n : Nat) (hn : 2 ≤ n)
    (hanl : '\n' ∉ a) (hadig : ∀ c ∈ a, c.isDigit = false)
    (hds : ds ≠ []) (hdig : ∀ c ∈ ds, c.isDigit = true)
    (hb : b.takeWhile isJsWs = []) :
    collapseBlankRuns (a ++ (List.replicate n '\n' ++ b)) =
      a ++ '\n' :: '\n' :: collapseBlankRuns b ∧
    breakNumbered (a ++ (ds ++ '.' :: b)) =
      a ++ '\n' :: (ds ++ '.' :: ' ' :: breakNumbered b) ∧
    formatExplanation "1. first\n\n\nsecond" = "\n1. first\n\nsecond" ∧
    formatExplanation "**  bold  ** x" = "**bold** x" := by
  refine ⟨?_, ?_, by decide, by decide⟩
  · unfold collapseBlankRuns
    rw [collapseGo_append_no_nl a _ hanl, collapseGo_run n hn b hb]
  · unfold breakNumbered
    rw [breakNumGo_append_no_digit a _ hadig, breakNumGo_marker ds b hds hdig hb]

/-- C9 witness: the general collapse and marker-break statements at a
concrete text. -/
theorem c9_postprocessing_witness :
    collapseBlankRuns ("ab".data ++ (List.replicate 3 '\n' ++ "cd".data)) =
      "ab".data ++ '\n' :: '\n' :: collapseBlankRuns "cd".data ∧
    breakNumbered ("ab".data ++ ("42".data ++ '.' :: "cd".data)) =
      "ab".data ++ '\n' :: ("42".data ++ '.' :: ' ' :: breakNumbered "cd".data) :=
  ⟨(c9_postprocessing "ab".data "42".data "cd".data 3 (by decide) (by decide)
      (by decide) (by decide) (by decide) (by decide)).1,
   (c9_postprocessing "ab".data "42".data "cd".data 3 (by decide) (by decide)
      (by decide) (by decide) (by decide) (by decide)).2.1⟩
